import Mathlib

/-!
A shallow embedding of the embedded static-asset serving core of the
`sgsr` Go package, together with theorems checking its natural-language
specification.  Go strings are modelled as `List Char`, byte slices as
`List Nat`, `float64` q-values as rationals, and Go maps as association
lists whose insertion replaces an existing binding.
-/

namespace Sgsr

/-- Go strings, modelled as lists of characters. -/
abbrev Str := List Char

/-- Inject a Lean string literal into the `Str` model. -/
def str (s : String) : Str := s.data

/-- Go `[]byte`, modelled as a list of byte values. -/
abbrev ByteSeq := List Nat

/-- Whitespace recognised by `strings.TrimSpace` (ASCII cases). -/
def goIsSpace (c : Char) : Bool :=
  c = ' ' || c = '\t' || c = '\n' || c = Char.ofNat 11 || c = Char.ofNat 12 || c = '\r'

/-- Drop leading whitespace. -/
def trimLeft : Str → Str
  | [] => []
  | c :: cs => if goIsSpace c then trimLeft cs else c :: cs

/-- Go `strings.TrimSpace`. -/
def trimSpace (s : Str) : Str :=
  (trimLeft (trimLeft s).reverse).reverse

/-- Go `strings.Split` with a one-character separator. -/
def splitOnChar (sep : Char) : Str → List Str
  | [] => [[]]
  | c :: cs =>
    if c = sep then [] :: splitOnChar sep cs
    else
      match splitOnChar sep cs with
      | [] => [[c]]
      | t :: ts => (c :: t) :: ts

/-- Split at the first occurrence of `sep`: models Go
`strings.Index` plus slicing (`none` when `sep` is absent). -/
def break1 (sep : Char) : Str → Option (Str × Str)
  | [] => none
  | c :: cs =>
    if c = sep then some ([], cs)
    else
      match break1 sep cs with
      | none => none
      | some (a, b) => some (c :: a, b)

/-- Go `strings.ToLower` (character-wise). -/
def toLowerStr (s : Str) : Str := s.map Char.toLower

/-- Go `strings.TrimPrefix(s, "/")`: removes one leading slash if present. -/
def trimLeadSlash : Str → Str
  | '/' :: rest => rest
  | s => s

/-- `filepathToURLPath`: replace every backslash with a forward slash. -/
def filepathToURLPath (value : Str) : Str :=
  value.map fun c => if c = '\\' then '/' else c

/-- Go map read with `ok` flag: first (and only) binding of a key. -/
def mapGet {α : Type} (m : List (Str × α)) (k : Str) : Option α :=
  (m.find? fun p => p.1 = k).map (·.2)

/-- Go map assignment: replace the binding if the key exists, else append. -/
def mapSet {α : Type} : List (Str × α) → Str → α → List (Str × α)
  | [], k, v => [(k, v)]
  | (k', v') :: rest, k, v =>
    if k' = k then (k, v) :: rest else (k', v') :: mapSet rest k v

/-- `ContentEncodingIdentity`. -/
def ContentEncodingIdentity : Str := str "identity"

/-- `ContentEncodingGzip`. -/
def ContentEncodingGzip : Str := str "gzip"

/-- `ContentEncodingDeflate`. -/
def ContentEncodingDeflate : Str := str "deflate"

/-- `ContentEncodingBrotli`. -/
def ContentEncodingBrotli : Str := str "br"

/-- `ContentEncodingZstd`. -/
def ContentEncodingZstd : Str := str "zstd"

/-- `defaultStaticEncodings`. -/
def defaultStaticEncodings : List Str :=
  [ContentEncodingZstd, ContentEncodingBrotli, ContentEncodingGzip,
   ContentEncodingDeflate, ContentEncodingIdentity]

/-- `canonicalEncoding`: trim, lowercase, map aliases; `none` models the
`unsupported encoding` error. -/
def canonicalEncoding (encoding : Str) : Option Str :=
  let value := toLowerStr (trimSpace encoding)
  if value = ContentEncodingIdentity then some ContentEncodingIdentity
  else if value = ContentEncodingGzip ∨ value = str "x-gzip" then some ContentEncodingGzip
  else if value = ContentEncodingDeflate ∨ value = str "x-deflate" then some ContentEncodingDeflate
  else if value = ContentEncodingBrotli then some ContentEncodingBrotli
  else if value = ContentEncodingZstd then some ContentEncodingZstd
  else none

/-- Digits at the front of a string: `(digit run, rest)`. -/
def takeDigits (s : Str) : Str × Str :=
  (s.takeWhile Char.isDigit, s.dropWhile Char.isDigit)

/-- Value of a digit run. -/
def digitsToNat (ds : Str) : Nat :=
  ds.foldl (fun acc c => acc * 10 + (c.toNat - 48)) 0

/-- The decimal fragment of Go `strconv.ParseFloat`: optional sign,
digits with an optional fraction, optional decimal exponent.  q-values
are modelled as rationals rather than `float64`. -/
def parseFloat (s : Str) : Option ℚ :=
  let signRest : ℤ × Str :=
    match s with
    | '+' :: rest => (1, rest)
    | '-' :: rest => (-1, rest)
    | _ => (1, s)
  let ipRest := takeDigits signRest.2
  let fpRest : Str × Str :=
    match ipRest.2 with
    | '.' :: rest => takeDigits rest
    | _ => ([], ipRest.2)
  if ipRest.1 = [] ∧ fpRest.1 = [] then none
  else
    let m : ℤ :=
      signRest.1 * (digitsToNat ipRest.1 * 10 ^ fpRest.1.length + digitsToNat fpRest.1)
    let scale : ℕ := 10 ^ fpRest.1.length
    match fpRest.2 with
    | [] => some (mkRat m scale)
    | e :: rest =>
      if e = 'e' ∨ e = 'E' then
        let epos : Bool × Str :=
          match rest with
          | '+' :: r => (true, r)
          | '-' :: r => (false, r)
          | _ => (true, rest)
        let edRest := takeDigits epos.2
        if edRest.1 = [] ∨ edRest.2 ≠ [] then none
        else if epos.1 then some (mkRat (m * 10 ^ digitsToNat edRest.1) scale)
        else some (mkRat m (scale * 10 ^ digitsToNat edRest.1))
      else none

/-- `acceptEncodingSpecs`: result of parsing an `Accept-Encoding` header. -/
structure AcceptEncodingSpecs where
  declared : List (Str × ℚ)
  wildcard : ℚ
  hasValue : Bool
  hasAny : Bool
deriving Repr, DecidableEq

/-- `acceptEncodingSpecs.hasDeclared`. -/
def hasDeclared (a : AcceptEncodingSpecs) (encoding : Str) : Bool :=
  (mapGet a.declared encoding).isSome

/-- One parameter of a token: `k=v` with key `q` updates the running
q-value (clamped to `[0,1]`); anything else leaves it unchanged. -/
def applyParam (q : ℚ) (param : Str) : ℚ :=
  match break1 '=' (trimSpace param) with
  | none => q
  | some (k, v) =>
    if toLowerStr (trimSpace k) ≠ ['q'] then q
    else
      match parseFloat (trimSpace v) with
      | none => q
      | some parsedQ =>
        if parsedQ < 0 then 0
        else if parsedQ > 1 then 1
        else parsedQ

/-- Name and q-value of one (already trimmed, non-empty) token. -/
def tokenNameQ (token : Str) : Str × ℚ :=
  match break1 ';' token with
  | none => (token, 1)
  | some (pre, post) =>
    (trimSpace pre, (splitOnChar ';' post).foldl applyParam 1)

/-- Process one comma-separated part of the header: skip blank parts,
record a `*` token in the wildcard fields, record a recognised coding
in `declared` (overriding an earlier declaration), ignore the rest. -/
def processToken (specs : AcceptEncodingSpecs) (part : Str) : AcceptEncodingSpecs :=
  if trimSpace part = [] then specs
  else if toLowerStr (tokenNameQ (trimSpace part)).1 = ['*'] then
    { specs with wildcard := (tokenNameQ (trimSpace part)).2, hasAny := true }
  else
    match canonicalEncoding (toLowerStr (tokenNameQ (trimSpace part)).1) with
    | none => specs
    | some canonical =>
      { specs with declared := mapSet specs.declared canonical (tokenNameQ (trimSpace part)).2 }

/-- `parseAcceptEncoding`. -/
def parseAcceptEncoding (header : Str) : AcceptEncodingSpecs :=
  if trimSpace header = [] then
    { declared := [], wildcard := 0, hasValue := !(trimSpace header).isEmpty, hasAny := false }
  else
    (splitOnChar ',' (trimSpace header)).foldl processToken
      { declared := [], wildcard := 0, hasValue := !(trimSpace header).isEmpty, hasAny := false }

/-- `acceptEncodingSpecs.qValueFor`. -/
def qValueFor (a : AcceptEncodingSpecs) (encoding : Str) : ℚ :=
  if a.hasValue = false then
    if encoding = ContentEncodingIdentity then 1 else 0
  else
    match mapGet a.declared encoding with
    | some q => q
    | none =>
      if encoding = ContentEncodingIdentity then
        if a.hasAny = true ∧ a.wildcard = 0 then 0 else 1
      else if a.hasAny = true then a.wildcard
      else 0

/-- One iteration of the compressed-preference loop of
`negotiateEncoding`: skip `identity` and codings without a variant,
keep a coding when its q is positive and beats the best so far. -/
def negotiateStep (specs : AcceptEncodingSpecs) (variants : List (Str × ByteSeq))
    (b : Str × ℚ) (encoding : Str) : Str × ℚ :=
  if encoding = ContentEncodingIdentity then b
  else if (mapGet variants encoding).isNone then b
  else if qValueFor specs encoding ≤ 0 then b
  else if qValueFor specs encoding > b.2 then (encoding, qValueFor specs encoding)
  else b

/-- The returns after the loop of `negotiateEncoding`: the identity
override (Go falls through when the inner check fails, so the nested
`if`s are one conjunction), then the best compressed coding, then
identity, then "not acceptable". -/
def negotiateFinish (specs : AcceptEncodingSpecs) (variants : List (Str × ByteSeq))
    (best : Str × ℚ) : Str × Bool :=
  if hasDeclared specs ContentEncodingIdentity = true ∧
      qValueFor specs ContentEncodingIdentity > best.2 ∧
      (mapGet variants ContentEncodingIdentity).isSome ∧
      qValueFor specs ContentEncodingIdentity > 0 then
    (ContentEncodingIdentity, true)
  else if best.1 ≠ [] then (best.1, true)
  else if qValueFor specs ContentEncodingIdentity ≤ 0 then ([], false)
  else if (mapGet variants ContentEncodingIdentity).isNone then ([], false)
  else (ContentEncodingIdentity, true)

/-- `negotiateEncoding`: returns the chosen coding and an `acceptable`
flag; `([], false)` models Go's `("", false)` "not acceptable". -/
def negotiateEncoding (header : Str) (preferred : List Str)
    (variants : List (Str × ByteSeq)) : Str × Bool :=
  if preferred.length = 0 ∨ variants.length = 0 then ([], false)
  else
    negotiateFinish (parseAcceptEncoding header) variants
      (preferred.foldl (negotiateStep (parseAcceptEncoding header) variants) ([], -1))

/-- The loop of `normalizeEncodingOrder`: canonicalize each entry and
drop duplicates keeping the first occurrence.  The Go `seen` set always
holds exactly the entries of `normalized`, so it is modelled by list
membership. -/
def normalizeGo : List Str → List Str → Option (List Str)
  | normalized, [] => some normalized
  | normalized, raw :: rest =>
    match canonicalEncoding raw with
    | none => none
    | some encoding =>
      if encoding ∈ normalized then normalizeGo normalized rest
      else normalizeGo (normalized ++ [encoding]) rest

/-- `normalizeEncodingOrder`; `none` models the error returns. -/
def normalizeEncodingOrder (encodings : List Str) : Option (List Str) :=
  match normalizeGo [] encodings with
  | none => none
  | some normalized =>
    if normalized = [] then none
    else if ContentEncodingIdentity ∈ normalized then some normalized
    else some (normalized ++ [ContentEncodingIdentity])

/-- Segment loop of Go `path.Clean`: skip empty and `.` segments, let
`..` pop the last kept segment (at the root of a rooted path a `..` is
dropped; in an unrooted path it is kept). -/
def cleanSegsGo (rooted : Bool) : List Str → List Str → List Str
  | acc, [] => acc
  | acc, seg :: rest =>
    if seg = [] ∨ seg = ['.'] then cleanSegsGo rooted acc rest
    else if seg = ['.', '.'] then
      if acc ≠ [] ∧ acc.getLast? ≠ some ['.', '.'] then
        cleanSegsGo rooted acc.dropLast rest
      else if rooted then cleanSegsGo rooted acc rest
      else cleanSegsGo rooted (acc ++ [['.', '.']]) rest
    else cleanSegsGo rooted (acc ++ [seg]) rest

/-- Join segments with `/`. -/
def joinSegs : List Str → Str
  | [] => []
  | [s] => s
  | s :: rest => s ++ '/' :: joinSegs rest

/-- Go `path.Clean`. -/
def pathClean (p : Str) : Str :=
  if p = [] then ['.']
  else
    let rooted := p.head? = some '/'
    let out := joinSegs (cleanSegsGo rooted [] (splitOnChar '/' p))
    if rooted then '/' :: out
    else if out = [] then ['.']
    else out

/-- Go `path.Join` on two elements. -/
def goPathJoin2 (a b : Str) : Str :=
  if a ≠ [] then pathClean (a ++ '/' :: b)
  else if b ≠ [] then pathClean b
  else []

/-- Go `path.Ext`: suffix from the last dot of the final path element. -/
def pathExt (p : Str) : Str :=
  let revTail := p.reverse.takeWhile fun c => c ≠ '/'
  let pre := revTail.takeWhile fun c => c ≠ '.'
  if pre.length = revTail.length then [] else '.' :: pre.reverse

/-- `embeddedStaticAsset`. -/
structure Asset where
  contentType : Str
  variants : List (Str × ByteSeq)
deriving Repr, DecidableEq

/-- The per-coding loop of `buildAsset`.  Compressor functions are
abstract parameters (the real ones wrap gzip/deflate/brotli/zstd);
`none` models a compressor error or a missing table entry. -/
def buildAssetLoop (raw : ByteSeq) (compressors : List (Str × (ByteSeq → Option ByteSeq))) :
    List (Str × ByteSeq) → List Str → Option (List (Str × ByteSeq))
  | variants, [] => some variants
  | variants, encoding :: rest =>
    if encoding = ContentEncodingIdentity then buildAssetLoop raw compressors variants rest
    else
      match mapGet compressors encoding with
      | none => none
      | some compress =>
        match compress raw with
        | none => none
        | some compressed =>
          if compressed.length ≥ raw.length then buildAssetLoop raw compressors variants rest
          else buildAssetLoop raw compressors (mapSet variants encoding compressed) rest

/-- `buildAsset`.  `mimeByExtension` and `detectContentType` stand for
`mime.TypeByExtension` and `http.DetectContentType` of the Go standard
library (external to this repository). -/
def buildAsset (raw : ByteSeq) (file : Str) (encodings : List Str)
    (compressors : List (Str × (ByteSeq → Option ByteSeq)))
    (mimeByExtension : Str → Str) (detectContentType : ByteSeq → Str) : Option Asset :=
  match buildAssetLoop raw compressors (mapSet [] ContentEncodingIdentity raw) encodings with
  | none => none
  | some variants =>
    let fromExt := mimeByExtension (pathExt file)
    let contentType := if fromExt = [] then detectContentType raw else fromExt
    some { contentType := contentType, variants := variants }

/-- The lookup key computed by `resolveAsset` (after the wildcard
suffix has been extracted from the request), without the leading `/`. -/
def resolveCleanPath (indexFile relative : Str) : Str :=
  let r1 := trimLeadSlash (filepathToURLPath relative)
  let r := if r1 = [] then indexFile else r1
  trimLeadSlash (pathClean ('/' :: r))

/-- `resolveAsset`, taking the already-extracted request suffix. -/
def resolveAsset (assets : List (Str × Asset)) (indexFile relative : Str) : Option Asset :=
  match mapGet assets ('/' :: resolveCleanPath indexFile relative) with
  | some asset => some asset
  | none =>
    if resolveCleanPath indexFile relative ≠ indexFile then
      mapGet assets ('/' :: goPathJoin2 (resolveCleanPath indexFile relative) indexFile)
    else none

/-- Request methods the handler is registered for. -/
inductive Method where
  | get
  | head
deriving Repr, DecidableEq

/-- The observable response written by `serve`. -/
structure Response where
  status : Nat
  contentType : Option Str
  contentEncoding : Option Str
  cacheControl : Option Str
  varyAcceptEncoding : Bool
  contentLength : Option Nat
  body : Option ByteSeq
deriving Repr, DecidableEq

/-- A response carrying only a status code (`SendStatus`). -/
def statusOnly (status : Nat) : Response :=
  { status := status, contentType := none, contentEncoding := none,
    cacheControl := none, varyAcceptEncoding := false,
    contentLength := none, body := none }

/-- The successful (status 200) response of `serve` for a chosen
coding: the body is the Go map read `asset.variants[encoding]` (zero
value on a miss). -/
def serveOk (cacheControl : Str) (method : Method) (asset : Asset) (encoding : Str) : Response :=
  { status := 200,
    contentType := some asset.contentType,
    contentEncoding := if encoding ≠ ContentEncodingIdentity then some encoding else none,
    cacheControl := if cacheControl ≠ [] then some cacheControl else none,
    varyAcceptEncoding := true,
    contentLength :=
      if method = Method.head then some ((mapGet asset.variants encoding).getD []).length
      else none,
    body :=
      if method = Method.head then none
      else some ((mapGet asset.variants encoding).getD []) }

/-- `embeddedStaticHandler.serve`. -/
def serve (assets : List (Str × Asset)) (indexFile cacheControl : Str)
    (encodings : List Str) (method : Method) (relative acceptEncoding : Str) : Response :=
  match resolveAsset assets indexFile relative with
  | none => statusOnly 404
  | some asset =>
    if (negotiateEncoding acceptEncoding encodings asset.variants).2 = false then statusOnly 406
    else serveOk cacheControl method asset
      (negotiateEncoding acceptEncoding encodings asset.variants).1

/-- The closed set of coding names of the data model. -/
def codingNames : List Str :=
  [ContentEncodingIdentity, ContentEncodingGzip, ContentEncodingDeflate,
   ContentEncodingBrotli, ContentEncodingZstd]

/-- The scan of the specification's selection algorithm (§4.7 step 2):
skip `identity` and absent codings; keep a coding when its q is
positive and strictly greater than the best so far. -/
def specStep (specs : AcceptEncodingSpecs) (variants : List (Str × ByteSeq))
    (b : Option Str × ℚ) (e : Str) : Option Str × ℚ :=
  if e = ContentEncodingIdentity then b
  else if (mapGet variants e).isNone then b
  else if qValueFor specs e > 0 ∧ qValueFor specs e > b.2 then (some e, qValueFor specs e)
  else b

/-- Steps 3–6 of the specification's selection algorithm: the identity
override, then the best compressed coding, then identity, else fail. -/
def specFinish (specs : AcceptEncodingSpecs) (variants : List (Str × ByteSeq))
    (best : Option Str × ℚ) : Option Str :=
  if hasDeclared specs ContentEncodingIdentity = true ∧
      qValueFor specs ContentEncodingIdentity > best.2 ∧
      qValueFor specs ContentEncodingIdentity > 0 ∧
      (mapGet variants ContentEncodingIdentity).isSome then
    some ContentEncodingIdentity
  else
    match best.1 with
    | some e => some e
    | none =>
      if qValueFor specs ContentEncodingIdentity > 0 ∧
          (mapGet variants ContentEncodingIdentity).isSome then
        some ContentEncodingIdentity
      else none

/-- The selection algorithm as worded by the specification (§4.7 steps
1–6), with `none` for "not acceptable": scan `preferred` in order via
`specStep`, then finish via `specFinish`. -/
def specSelect (header : Str) (preferred : List Str)
    (variants : List (Str × ByteSeq)) : Option Str :=
  specFinish (parseAcceptEncoding header) variants
    (preferred.foldl (specStep (parseAcceptEncoding header) variants) (none, -1))

theorem mapGet_nil {α : Type} (k : Str) : mapGet ([] : List (Str × α)) k = none := rfl

theorem mapGet_cons {α : Type} (k' : Str) (v' : α) (rest : List (Str × α)) (k : Str) :
    mapGet ((k', v') :: rest) k = if k' = k then some v' else mapGet rest k := by
  by_cases h : k' = k <;>
    simp [mapGet, List.find?_cons_of_pos, List.find?_cons_of_neg, h]

theorem mapGet_mapSet_self {α : Type} (m : List (Str × α)) (k : Str) (v : α) :
    mapGet (mapSet m k v) k = some v := by
  induction m with
  | nil => simp [mapSet, mapGet_cons]
  | cons p rest ih =>
    obtain ⟨k', v'⟩ := p
    by_cases h : k' = k
    · simp [mapSet, h, mapGet_cons]
    · simp [mapSet, h, mapGet_cons, ih]

theorem mapGet_mapSet_ne {α : Type} (m : List (Str × α)) (k k₂ : Str) (v : α)
    (h : k₂ ≠ k) : mapGet (mapSet m k v) k₂ = mapGet m k₂ := by
  have hne : k ≠ k₂ := fun hh => h hh.symm
  induction m with
  | nil =>
    show mapGet [(k, v)] k₂ = mapGet [] k₂
    rw [mapGet_cons, if_neg hne, mapGet_nil]
  | cons p rest ih =>
    obtain ⟨k', v'⟩ := p
    by_cases hk : k' = k
    · subst hk
      show mapGet (if k' = k' then (k', v) :: rest else (k', v') :: mapSet rest k' v) k₂ =
        mapGet ((k', v') :: rest) k₂
      rw [if_pos rfl, mapGet_cons, mapGet_cons, if_neg hne, if_neg hne]
    · show mapGet (if k' = k then (k, v) :: rest else (k', v') :: mapSet rest k v) k₂ =
        mapGet ((k', v') :: rest) k₂
      rw [if_neg hk, mapGet_cons, mapGet_cons, ih]

theorem mapGet_mem {α : Type} {m : List (Str × α)} {k : Str} {v : α}
    (h : mapGet m k = some v) : (k, v) ∈ m := by
  obtain ⟨p, hfind, hp2⟩ := Option.map_eq_some'.1 h
  have hmem := List.mem_of_find?_eq_some hfind
  have hk : p.1 = k := by simpa using List.find?_some hfind
  have : p = (k, v) := by
    obtain ⟨a, b⟩ := p
    simp only at hk hp2
    rw [hk, hp2]
  rwa [this] at hmem

theorem mapGet_isSome_of_ne_nil {α : Type} {m : List (Str × α)} {k : Str}
    (h : (mapGet m k).isSome = true) : m ≠ [] := by
  intro hnil
  rw [hnil] at h
  simp [mapGet_nil] at h

/-- Fold invariant: a property preserved by each step holds of the
result. -/
theorem foldl_inv {α β : Type} (f : α → β → α) (P : α → Prop)
    (l : List β) (a : α) (ha : P a) (hstep : ∀ x y, y ∈ l → P x → P (f x y)) :
    P (l.foldl f a) := by
  induction l generalizing a with
  | nil => exact ha
  | cons y ys ih =>
    exact ih (f a y) (hstep a y (by simp) ha)
      (fun x z hz hx => hstep x z (by simp [hz]) hx)

/-- The compressed-preference loop only stores codings that have a
variant: Go's `""` sentinel either stays empty or names a stored key. -/
theorem negotiateStep_keeps_membership (specs : AcceptEncodingSpecs)
    (variants : List (Str × ByteSeq)) (b : Str × ℚ) (e : Str)
    (hb : b.1 = [] ∨ (mapGet variants b.1).isSome = true) :
    (negotiateStep specs variants b e).1 = [] ∨
      (mapGet variants (negotiateStep specs variants b e).1).isSome = true := by
  unfold negotiateStep
  split_ifs with h1 h2 h3 h4
  · exact hb
  · exact hb
  · exact hb
  · right
    simp only [Option.isNone_iff_eq_none] at h2
    simpa [Option.isSome_iff_ne_none] using h2
  · exact hb

/-- Claim C10: a coding returned as acceptable is always a key of the
variants map; an empty variants map or an empty preference list always
yields "not acceptable". -/
theorem negotiateEncoding_membership :
    (∀ header preferred variants e,
      negotiateEncoding header preferred variants = (e, true) →
      (mapGet variants e).isSome = true) ∧
    (∀ header preferred, negotiateEncoding header preferred ([] : List (Str × ByteSeq)) = ([], false)) ∧
    (∀ header variants, negotiateEncoding header ([] : List Str) variants = ([], false)) := by
  refine ⟨?_, ?_, ?_⟩
  · intro header preferred variants e h
    unfold negotiateEncoding at h
    split_ifs at h with hguard
    · simp at h
    · have hinv := foldl_inv (negotiateStep (parseAcceptEncoding header) variants)
        (fun b => b.1 = [] ∨ (mapGet variants b.1).isSome = true)
        preferred ([], -1) (Or.inl rfl)
        (fun x y _ hx => negotiateStep_keeps_membership _ _ x y hx)
      unfold negotiateFinish at h
      split_ifs at h with h1 h2 h3 h4
      · obtain ⟨-, -, hsome, -⟩ := h1
        have he : e = ContentEncodingIdentity := ((Prod.ext_iff.1 h).1).symm
        rwa [he]
      · have he : e = (preferred.foldl
            (negotiateStep (parseAcceptEncoding header) variants) ([], -1)).1 :=
          ((Prod.ext_iff.1 h).1).symm
        rcases hinv with hnil | hsome
        · exact absurd hnil h2
        · rwa [he]
      · simp at h
      · simp at h
      · have he : e = ContentEncodingIdentity := ((Prod.ext_iff.1 h).1).symm
        rw [he]
        simp only [Option.isNone_iff_eq_none] at h4
        simpa [Option.isSome_iff_ne_none] using h4
  · intro header preferred
    simp [negotiateEncoding]
  · intro header variants
    simp [negotiateEncoding]

/-- Witness for `negotiateEncoding_membership` at a concrete request. -/
theorem negotiateEncoding_membership_witness :
    (mapGet [(ContentEncodingGzip, ([9] : ByteSeq)),
             (ContentEncodingIdentity, [1, 2])] ContentEncodingGzip).isSome = true :=
  negotiateEncoding_membership.1 (str "gzip")
    [ContentEncodingGzip, ContentEncodingIdentity]
    [(ContentEncodingGzip, [9]), (ContentEncodingIdentity, [1, 2])]
    ContentEncodingGzip (by decide)

/-- The compressed-preference loop keeps its best q strictly below any
bound that dominates every eligible coding. -/
theorem negotiateStep_lt (specs : AcceptEncodingSpecs) (variants : List (Str × ByteSeq))
    (iq : ℚ) (b : Str × ℚ) (e : Str) (hb : b.2 < iq)
    (he : e ≠ ContentEncodingIdentity → ∀ bs, mapGet variants e = some bs →
      qValueFor specs e < iq) :
    (negotiateStep specs variants b e).2 < iq := by
  unfold negotiateStep
  split_ifs with h1 h2 h3 h4
  · exact hb
  · exact hb
  · exact hb
  · simp only [Option.isNone_iff_eq_none] at h2
    obtain ⟨bs, hbs⟩ := Option.ne_none_iff_exists'.1 h2
    exact he h1 bs hbs
  · exact hb

/-- Claim C1, amended: when identity is explicitly declared with
positive q, the identity variant exists, the preference list is
non-empty, and the declared identity q is strictly greater than the q
of every non-identity variant stored for the asset, the negotiator
returns identity.  (On an exact tie the compressed variant wins; see
the counterexample.) -/
theorem negotiateEncoding_identity_override (header : Str) (preferred : List Str)
    (variants : List (Str × ByteSeq))
    (hpref : preferred ≠ [])
    (hdecl : hasDeclared (parseAcceptEncoding header) ContentEncodingIdentity = true)
    (hpos : qValueFor (parseAcceptEncoding header) ContentEncodingIdentity > 0)
    (hvar : (mapGet variants ContentEncodingIdentity).isSome = true)
    (hlt : ∀ p ∈ variants, p.1 ≠ ContentEncodingIdentity →
      qValueFor (parseAcceptEncoding header) p.1 <
        qValueFor (parseAcceptEncoding header) ContentEncodingIdentity) :
    negotiateEncoding header preferred variants = (ContentEncodingIdentity, true) := by
  have hvne : variants ≠ [] := mapGet_isSome_of_ne_nil hvar
  have hguard : ¬(preferred.length = 0 ∨ variants.length = 0) := by
    simp [List.length_eq_zero, hpref, hvne]
  unfold negotiateEncoding
  rw [if_neg hguard]
  have hfold : (preferred.foldl
      (negotiateStep (parseAcceptEncoding header) variants) ([], -1)).2 <
      qValueFor (parseAcceptEncoding header) ContentEncodingIdentity := by
    apply foldl_inv (negotiateStep (parseAcceptEncoding header) variants)
      (fun b => b.2 < qValueFor (parseAcceptEncoding header) ContentEncodingIdentity)
      preferred ([], -1)
    · exact lt_trans (by norm_num) hpos
    · intro x y _ hx
      apply negotiateStep_lt _ _ _ _ _ hx
      intro hne bs hbs
      exact hlt (y, bs) (mapGet_mem hbs) hne
  unfold negotiateFinish
  rw [if_pos ⟨hdecl, hfold, hvar, hpos⟩]

/-- Witness for `negotiateEncoding_identity_override`: the repository's
own "explicit identity preference" fixture. -/
theorem negotiateEncoding_identity_override_witness :
    negotiateEncoding (str "identity;q=1, br;q=0.4") defaultStaticEncodings
      [(ContentEncodingBrotli, [9]), (ContentEncodingIdentity, [1, 2])] =
      (ContentEncodingIdentity, true) :=
  negotiateEncoding_identity_override _ _ _ (by decide) (by decide) (by decide)
    (by decide) (by decide)

/-- Claim C1 as stated is false on the code: with
`identity;q=0.5, gzip;q=0.5` identity is declared with a q equal to the
best compressed q and the identity variant exists, yet gzip wins the
tie. -/
theorem negotiateEncoding_identity_tie_counterexample :
    hasDeclared (parseAcceptEncoding (str "identity;q=0.5, gzip;q=0.5"))
      ContentEncodingIdentity = true ∧
    qValueFor (parseAcceptEncoding (str "identity;q=0.5, gzip;q=0.5"))
      ContentEncodingIdentity = mkRat 1 2 ∧
    qValueFor (parseAcceptEncoding (str "identity;q=0.5, gzip;q=0.5"))
      ContentEncodingGzip = mkRat 1 2 ∧
    (mapGet [(ContentEncodingGzip, ([9] : ByteSeq)), (ContentEncodingIdentity, [1, 2])]
      ContentEncodingIdentity).isSome = true ∧
    negotiateEncoding (str "identity;q=0.5, gzip;q=0.5")
      [ContentEncodingGzip, ContentEncodingIdentity]
      [(ContentEncodingGzip, [9]), (ContentEncodingIdentity, [1, 2])] =
      (ContentEncodingGzip, true) := by decide

/-- When every stored variant has q zero, the loop never leaves its
initial state. -/
theorem negotiateStep_zero (specs : AcceptEncodingSpecs) (variants : List (Str × ByteSeq))
    (b : Str × ℚ) (e : Str)
    (hz : ∀ p ∈ variants, qValueFor specs p.1 = 0)
    (hb : b = ([], -1)) : negotiateStep specs variants b e = ([], -1) := by
  unfold negotiateStep
  split_ifs with h1 h2 h3 h4
  · exact hb
  · exact hb
  · exact hb
  · exfalso
    simp only [Option.isNone_iff_eq_none] at h2
    obtain ⟨bs, hbs⟩ := Option.ne_none_iff_exists'.1 h2
    exact h3 (le_of_eq (hz (e, bs) (mapGet_mem hbs)))
  · exact hb

/-- A header that zeroes the q of every stored variant makes the
negotiator return "not acceptable". -/
theorem negotiateEncoding_zero (header : Str) (preferred : List Str)
    (variants : List (Str × ByteSeq))
    (hz : ∀ p ∈ variants, qValueFor (parseAcceptEncoding header) p.1 = 0) :
    negotiateEncoding header preferred variants = ([], false) := by
  unfold negotiateEncoding
  split_ifs with hguard
  · rfl
  · have hfold : preferred.foldl
        (negotiateStep (parseAcceptEncoding header) variants) ([], -1) = ([], -1) := by
      apply foldl_inv (negotiateStep (parseAcceptEncoding header) variants)
        (fun b => b = ([], -1)) preferred ([], -1) rfl
      intro x y _ hx
      exact negotiateStep_zero _ _ x y hz hx
    rw [hfold]
    unfold negotiateFinish
    split_ifs with h1 h2 h3 h4
    · exfalso
      obtain ⟨-, -, hsome, hqpos⟩ := h1
      obtain ⟨bs, hbs⟩ := Option.isSome_iff_exists.1 hsome
      have := hz (ContentEncodingIdentity, bs) (mapGet_mem hbs)
      rw [this] at hqpos
      exact lt_irrefl 0 hqpos
    · exact absurd rfl h2
    · rfl
    · rfl
    · exfalso
      simp only [Option.isNone_iff_eq_none] at h4
      obtain ⟨bs, hbs⟩ := Option.ne_none_iff_exists'.1 h4
      have := hz (ContentEncodingIdentity, bs) (mapGet_mem hbs)
      rw [this] at h3
      exact h3 le_rfl

/-- Claim C4: a request whose header zeroes the q of every variant of
the resolved asset gets a 406, and the negotiator is total — every
input yields either an acceptable coding or `([], false)`. -/
theorem serve_406_on_all_zero_and_total :
    (∀ assets indexFile cacheControl encodings method relative header asset,
      resolveAsset assets indexFile relative = some asset →
      (∀ p ∈ asset.variants, qValueFor (parseAcceptEncoding header) p.1 = 0) →
      (serve assets indexFile cacheControl encodings method relative header).status = 406) ∧
    (∀ header preferred variants,
      (negotiateEncoding header preferred variants).2 = true ∨
      negotiateEncoding header preferred variants = ([], false)) := by
  constructor
  · intro assets idx cc encs m rel hdr asset hres hz
    unfold serve
    rw [hres]
    show (if (negotiateEncoding hdr encs asset.variants).2 = false then statusOnly 406
      else serveOk cc m asset (negotiateEncoding hdr encs asset.variants).1).status = 406
    rw [negotiateEncoding_zero hdr encs asset.variants hz]
    rfl
  · intro header preferred variants
    unfold negotiateEncoding
    split_ifs with hguard
    · exact Or.inr rfl
    · unfold negotiateFinish
      split_ifs
      · exact Or.inl rfl
      · exact Or.inl rfl
      · exact Or.inr rfl
      · exact Or.inr rfl
      · exact Or.inl rfl

/-- Witness for `serve_406_on_all_zero_and_total`: the repository's
`identity;q=0, br;q=0, gzip;q=0, deflate;q=0, zstd;q=0` fixture. -/
theorem serve_406_witness :
    (serve [(str "/hello.txt",
        ⟨str "text/plain", [(ContentEncodingIdentity, [1, 2]), (ContentEncodingGzip, [9])]⟩)]
      (str "index.html") [] defaultStaticEncodings Method.get (str "hello.txt")
      (str "identity;q=0, br;q=0, gzip;q=0, deflate;q=0, zstd;q=0")).status = 406 :=
  serve_406_on_all_zero_and_total.1 _ _ _ _ _ _ _
    ⟨str "text/plain", [(ContentEncodingIdentity, [1, 2]), (ContentEncodingGzip, [9])]⟩
    (by decide) (by decide)

theorem processToken_hasValue (s : AcceptEncodingSpecs) (t : Str) :
    (processToken s t).hasValue = s.hasValue := by
  unfold processToken
  split_ifs with h1 h2
  · rfl
  · rfl
  · cases canonicalEncoding (toLowerStr (tokenNameQ (trimSpace t)).1) <;> rfl

theorem foldl_processToken_hasValue (ts : List Str) (s : AcceptEncodingSpecs) :
    (ts.foldl processToken s).hasValue = s.hasValue := by
  induction ts generalizing s with
  | nil => rfl
  | cons t rest ih => rw [List.foldl_cons, ih, processToken_hasValue]

theorem parseAcceptEncoding_hasValue (header : Str) :
    (parseAcceptEncoding header).hasValue = !(trimSpace header).isEmpty := by
  unfold parseAcceptEncoding
  split_ifs with h
  · rfl
  · rw [foldl_processToken_hasValue]

theorem parseAcceptEncoding_of_blank (header : Str) (h : trimSpace header = []) :
    parseAcceptEncoding header =
      { declared := [], wildcard := 0, hasValue := false, hasAny := false } := by
  unfold parseAcceptEncoding
  rw [if_pos h, h]
  rfl

/-- Claim C3: the q-value function on parsed specs — header absent
gives identity 1 and everything else 0; a declared coding gets its
declared q; undeclared identity gets 1 unless a `q=0` wildcard bans
it; any other undeclared coding gets the wildcard q, else 0. -/
theorem qValueFor_parsed_spec (header : Str) :
    (trimSpace header = [] →
      qValueFor (parseAcceptEncoding header) ContentEncodingIdentity = 1 ∧
      ∀ e, e ≠ ContentEncodingIdentity → qValueFor (parseAcceptEncoding header) e = 0) ∧
    (∀ e q, mapGet (parseAcceptEncoding header).declared e = some q →
      qValueFor (parseAcceptEncoding header) e = q) ∧
    ((parseAcceptEncoding header).hasValue = true →
      mapGet (parseAcceptEncoding header).declared ContentEncodingIdentity = none →
      qValueFor (parseAcceptEncoding header) ContentEncodingIdentity =
        (if (parseAcceptEncoding header).hasAny = true ∧
            (parseAcceptEncoding header).wildcard = 0 then 0 else 1)) ∧
    (∀ e, e ≠ ContentEncodingIdentity →
      (parseAcceptEncoding header).hasValue = true →
      mapGet (parseAcceptEncoding header).declared e = none →
      qValueFor (parseAcceptEncoding header) e =
        (if (parseAcceptEncoding header).hasAny = true
          then (parseAcceptEncoding header).wildcard else 0)) := by
  refine ⟨?_, ?_, ?_, ?_⟩
  · intro htrim
    rw [parseAcceptEncoding_of_blank header htrim]
    exact ⟨by simp [qValueFor], fun e he => by simp [qValueFor, he]⟩
  · intro e q h
    by_cases hv : (parseAcceptEncoding header).hasValue
    · simp [qValueFor, hv, h]
    · have htrim : trimSpace header = [] := by
        have := parseAcceptEncoding_hasValue header
        rw [eq_false_of_ne_true hv] at this
        simpa [List.isEmpty_iff] using this.symm
      rw [parseAcceptEncoding_of_blank header htrim] at h
      simp [mapGet_nil] at h
  · intro hv hnone
    simp [qValueFor, hv, hnone]
  · intro e he hv hnone
    simp [qValueFor, hv, hnone, he]

/-- Witness for `qValueFor_parsed_spec` on concrete headers. -/
theorem qValueFor_parsed_spec_witness :
    qValueFor (parseAcceptEncoding (str "   ")) ContentEncodingIdentity = 1 ∧
    qValueFor (parseAcceptEncoding (str "gzip;q=0.5, *;q=0.2")) ContentEncodingGzip =
      mkRat 1 2 ∧
    qValueFor (parseAcceptEncoding (str "gzip;q=0.5, *;q=0.2")) ContentEncodingIdentity = 1 ∧
    qValueFor (parseAcceptEncoding (str "gzip;q=0.5, *;q=0.2")) ContentEncodingBrotli =
      mkRat 1 5 := by
  refine ⟨((qValueFor_parsed_spec (str "   ")).1 (by decide)).1, ?_, ?_, ?_⟩
  · rw [(qValueFor_parsed_spec (str "gzip;q=0.5, *;q=0.2")).2.1 ContentEncodingGzip
      (mkRat 1 2) (by decide)]
  · rw [(qValueFor_parsed_spec (str "gzip;q=0.5, *;q=0.2")).2.2.1 (by decide) (by decide)]
    decide
  · rw [(qValueFor_parsed_spec (str "gzip;q=0.5, *;q=0.2")).2.2.2 ContentEncodingBrotli
      (by decide) (by decide) (by decide)]
    decide

/-- Claim C5: the Accept-Encoding parser — a token without `;` keeps
the default q of 1; a `q=<v>` parameter is clamped to `[0,1]`; an
unparseable `q` parameter is ignored, keeping the prior q; a
declaration overrides any earlier one for the same coding (so the last
occurrence wins, as on the concrete duplicate header); and
`hasValue` records whether the trimmed header is non-empty. -/
theorem parseAcceptEncoding_spec :
    (∀ token, break1 ';' token = none → tokenNameQ token = (token, 1)) ∧
    (∀ (q : ℚ) p k v r, break1 '=' (trimSpace p) = some (k, v) →
      toLowerStr (trimSpace k) = ['q'] → parseFloat (trimSpace v) = some r →
      applyParam q p = if r < 0 then 0 else if r > 1 then 1 else r) ∧
    (∀ (q : ℚ) p k v, break1 '=' (trimSpace p) = some (k, v) →
      toLowerStr (trimSpace k) = ['q'] → parseFloat (trimSpace v) = none →
      applyParam q p = q) ∧
    (∀ s t c, trimSpace t ≠ [] →
      canonicalEncoding (toLowerStr (tokenNameQ (trimSpace t)).1) = some c →
      mapGet (processToken s t).declared c = some (tokenNameQ (trimSpace t)).2) ∧
    (mapGet (parseAcceptEncoding (str "gzip;q=0.3, gzip;q=0.7")).declared
      ContentEncodingGzip = some (mkRat 7 10)) ∧
    (∀ header, (parseAcceptEncoding header).hasValue = !(trimSpace header).isEmpty) := by
  refine ⟨?_, ?_, ?_, ?_, by decide, parseAcceptEncoding_hasValue⟩
  · intro token h
    unfold tokenNameQ
    rw [h]
  · intro q p k v r hbreak hk hpf
    unfold applyParam
    rw [hbreak]
    simp only [hk, hpf]
    simp
  · intro q p k v hbreak hk hpf
    unfold applyParam
    rw [hbreak]
    simp only [hk, hpf]
    simp
  · intro s t c hne hcanon
    have hstar : toLowerStr (tokenNameQ (trimSpace t)).1 ≠ ['*'] := by
      intro hh
      rw [hh, show canonicalEncoding (['*'] : Str) = none from by decide] at hcanon
      exact Option.noConfusion hcanon
    unfold processToken
    rw [if_neg hne, if_neg hstar, hcanon]
    exact mapGet_mapSet_self _ _ _

/-- Witness for `parseAcceptEncoding_spec` at concrete tokens. -/
theorem parseAcceptEncoding_spec_witness :
    tokenNameQ (str "gzip") = (str "gzip", 1) ∧
    applyParam 1 (str "q=-3") = 0 ∧
    applyParam 1 (str "q=5") = 1 ∧
    applyParam (mkRat 1 2) (str "q=abc") = mkRat 1 2 ∧
    mapGet (processToken { declared := [], wildcard := 0, hasValue := true, hasAny := false }
      (str " gzip;q=0.5 ")).declared ContentEncodingGzip = some (mkRat 1 2) ∧
    (parseAcceptEncoding (str " ")).hasValue = false := by
  refine ⟨parseAcceptEncoding_spec.1 (str "gzip") (by decide), ?_, ?_, ?_, ?_, ?_⟩
  · rw [parseAcceptEncoding_spec.2.1 1 (str "q=-3") (str "q") (str "-3") (mkRat (-3) 1)
      (by decide) (by decide) (by decide)]
    decide
  · rw [parseAcceptEncoding_spec.2.1 1 (str "q=5") (str "q") (str "5") (mkRat 5 1)
      (by decide) (by decide) (by decide)]
    decide
  · exact parseAcceptEncoding_spec.2.2.1 (mkRat 1 2) (str "q=abc") (str "q") (str "abc")
      (by decide) (by decide) (by decide)
  · rw [parseAcceptEncoding_spec.2.2.2.1 _ (str " gzip;q=0.5 ") ContentEncodingGzip
      (by decide) (by decide)]
    decide
  · rw [parseAcceptEncoding_spec.2.2.2.2.2 (str " ")]
    decide

/-- `canonicalEncoding` is a retraction: every value it produces is a
fixed point. -/
theorem canonicalEncoding_fix {raw e : Str} (h : canonicalEncoding raw = some e) :
    canonicalEncoding e = some e := by
  simp only [canonicalEncoding] at h
  split_ifs at h
  all_goals injection h with h2
  all_goals subst h2
  all_goals decide

theorem normalizeGo_nodup : ∀ (l acc out : List Str), acc.Nodup →
    normalizeGo acc l = some out → out.Nodup := by
  intro l
  induction l with
  | nil =>
    intro acc out hacc h
    injection h with h
    rwa [← h]
  | cons raw rest ih =>
    intro acc out hacc h
    unfold normalizeGo at h
    cases hc : canonicalEncoding raw with
    | none => rw [hc] at h; exact Option.noConfusion h
    | some enc =>
      simp only [hc] at h
      by_cases hmem : enc ∈ acc
      · rw [if_pos hmem] at h
        exact ih acc out hacc h
      · rw [if_neg hmem] at h
        refine ih (acc ++ [enc]) out ?_ h
        refine List.nodup_append.2 ⟨hacc, List.nodup_singleton _, ?_⟩
        intro a ha hb
        simp only [List.mem_singleton] at hb
        subst hb
        exact hmem ha

theorem normalizeGo_canon : ∀ (l acc out : List Str),
    (∀ e ∈ acc, canonicalEncoding e = some e) →
    normalizeGo acc l = some out → ∀ e ∈ out, canonicalEncoding e = some e := by
  intro l
  induction l with
  | nil =>
    intro acc out hacc h
    injection h with h
    rw [← h]
    exact hacc
  | cons raw rest ih =>
    intro acc out hacc h
    unfold normalizeGo at h
    cases hc : canonicalEncoding raw with
    | none => rw [hc] at h; exact Option.noConfusion h
    | some enc =>
      simp only [hc] at h
      by_cases hmem : enc ∈ acc
      · rw [if_pos hmem] at h
        exact ih acc out hacc h
      · rw [if_neg hmem] at h
        refine ih (acc ++ [enc]) out ?_ h
        intro e he
        rcases List.mem_append.1 he with he | he
        · exact hacc e he
        · have : e = enc := by simpa using he
          rw [this]
          exact canonicalEncoding_fix hc

theorem normalizeGo_self : ∀ (l acc : List Str),
    (∀ e ∈ l, canonicalEncoding e = some e) → l.Nodup →
    (∀ e ∈ l, e ∉ acc) → normalizeGo acc l = some (acc ++ l) := by
  intro l
  induction l with
  | nil => intro acc _ _ _; simp [normalizeGo]
  | cons x rest ih =>
    intro acc hcanon hnodup hdis
    unfold normalizeGo
    rw [hcanon x (by simp)]
    simp only
    rw [if_neg (hdis x (by simp))]
    have := ih (acc ++ [x]) (fun e he => hcanon e (by simp [he]))
      (List.Nodup.of_cons hnodup)
      (fun e he hmem => by
        rcases List.mem_append.1 hmem with hm | hm
        · exact hdis e (by simp [he]) hm
        · have hx : e = x := by simpa using hm
          rw [List.nodup_cons] at hnodup
          exact hnodup.1 (hx ▸ he))
    rw [this]
    simp

theorem normalizeGo_none_of_bad : ∀ (l acc : List Str) (x : Str), x ∈ l →
    canonicalEncoding x = none → normalizeGo acc l = none := by
  intro l
  induction l with
  | nil => intro acc x hx; exact absurd hx (by simp)
  | cons y rest ih =>
    intro acc x hx hbad
    rcases List.mem_cons.1 hx with hxy | hxr
    · subst hxy
      unfold normalizeGo
      rw [hbad]
    · unfold normalizeGo
      cases hc : canonicalEncoding y with
      | none => rfl
      | some enc =>
        simp only
        by_cases hmem : enc ∈ acc
        · rw [if_pos hmem]
          exact ih acc x hxr hbad
        · rw [if_neg hmem]
          exact ih (acc ++ [enc]) x hxr hbad

/-- A canonical, duplicate-free, non-empty list containing identity is
left unchanged by `normalizeEncodingOrder`. -/
theorem normalizeEncodingOrder_of_good (ys : List Str)
    (h1 : ∀ e ∈ ys, canonicalEncoding e = some e) (h2 : ys.Nodup)
    (h3 : ys ≠ []) (h4 : ContentEncodingIdentity ∈ ys) :
    normalizeEncodingOrder ys = some ys := by
  unfold normalizeEncodingOrder
  rw [normalizeGo_self ys [] h1 h2 (by simp)]
  simp [h3, h4]

/-- In a duplicate-free list a member occurs exactly once. -/
theorem filter_length_one_of_nodup_mem {a : Str} : ∀ (ys : List Str), ys.Nodup →
    a ∈ ys → (ys.filter fun e => e = a).length = 1 := by
  intro ys
  induction ys with
  | nil => intro _ hmem; exact absurd hmem (by simp)
  | cons y t ih =>
    intro hnodup hmem
    rw [List.nodup_cons] at hnodup
    rcases List.mem_cons.1 hmem with hya | hat
    · subst hya
      have hnone : t.filter (fun e => e = a) = [] := by
        rw [List.filter_eq_nil_iff]
        intro x hx hxa
        simp only [decide_eq_true_eq] at hxa
        exact hnodup.1 (hxa ▸ hx)
      simp [List.filter, hnone]
    · have hya : ¬(y = a) := fun hy => hnodup.1 (hy ▸ hat)
      simp only [List.filter, decide_eq_false hya]
      exact ih hnodup.2 hat

/-- Claim C7: `normalizeEncodingOrder` is idempotent and its output
contains identity exactly once; it fails on an empty list and on any
unknown coding; and it appends identity at the end when the
deduplicated canonical list does not already contain it. -/
theorem normalizeEncodingOrder_spec :
    (∀ xs ys, normalizeEncodingOrder xs = some ys →
      normalizeEncodingOrder ys = some ys ∧
      (ys.filter fun e => e = ContentEncodingIdentity).length = 1) ∧
    (normalizeEncodingOrder [] = none) ∧
    (∀ xs x, x ∈ xs → canonicalEncoding x = none → normalizeEncodingOrder xs = none) ∧
    (∀ xs ns, normalizeGo [] xs = some ns → ns ≠ [] →
      ContentEncodingIdentity ∉ ns →
      normalizeEncodingOrder xs = some (ns ++ [ContentEncodingIdentity])) := by
  refine ⟨?_, by decide, ?_, ?_⟩
  · intro xs ys h
    unfold normalizeEncodingOrder at h
    cases hgo : normalizeGo [] xs with
    | none => rw [hgo] at h; exact Option.noConfusion h
    | some ns =>
      simp only [hgo] at h
      have hnodup : ns.Nodup := normalizeGo_nodup xs [] ns List.nodup_nil hgo
      have hcanon : ∀ e ∈ ns, canonicalEncoding e = some e :=
        normalizeGo_canon xs [] ns (by simp) hgo
      by_cases hne : ns = []
      · rw [if_pos hne] at h
        exact Option.noConfusion h
      · rw [if_neg hne] at h
        by_cases hid : ContentEncodingIdentity ∈ ns
        · rw [if_pos hid] at h
          injection h with h
          subst h
          exact ⟨normalizeEncodingOrder_of_good ns hcanon hnodup hne hid,
            filter_length_one_of_nodup_mem ns hnodup hid⟩
        · rw [if_neg hid] at h
          injection h with h
          subst h
          have hcanon2 : ∀ e ∈ ns ++ [ContentEncodingIdentity],
              canonicalEncoding e = some e := by
            intro e he
            rcases List.mem_append.1 he with he | he
            · exact hcanon e he
            · have : e = ContentEncodingIdentity := by simpa using he
              rw [this]
              decide
          have hnodup2 : (ns ++ [ContentEncodingIdentity]).Nodup := by
            refine List.nodup_append.2 ⟨hnodup, List.nodup_singleton _, ?_⟩
            intro a ha hb
            simp only [List.mem_singleton] at hb
            subst hb
            exact hid ha
          have hmem2 : ContentEncodingIdentity ∈ ns ++ [ContentEncodingIdentity] := by simp
          exact ⟨normalizeEncodingOrder_of_good _ hcanon2 hnodup2 (by simp) hmem2,
            filter_length_one_of_nodup_mem _ hnodup2 hmem2⟩
  · intro xs x hx hbad
    unfold normalizeEncodingOrder
    rw [normalizeGo_none_of_bad xs [] x hx hbad]
  · intro xs ns hgo hne hid
    unfold normalizeEncodingOrder
    rw [hgo]
    simp [hne, hid]

/-- Witness for `normalizeEncodingOrder_spec`: normalizing
`["gzip", "br"]` appends identity, and the result is a fixed point with
identity occurring once. -/
theorem normalizeEncodingOrder_spec_witness :
    normalizeEncodingOrder
        [ContentEncodingGzip, ContentEncodingBrotli, ContentEncodingIdentity] =
      some [ContentEncodingGzip, ContentEncodingBrotli, ContentEncodingIdentity] ∧
    ([ContentEncodingGzip, ContentEncodingBrotli, ContentEncodingIdentity].filter
      fun e => e = ContentEncodingIdentity).length = 1 :=
  normalizeEncodingOrder_spec.1 [str "gzip", str "br"]
    [ContentEncodingGzip, ContentEncodingBrotli, ContentEncodingIdentity] (by decide)

/-- The variant-building loop preserves the stored identity bytes and
only adds strictly smaller compressed variants. -/
theorem buildAssetLoop_invariant (raw : ByteSeq)
    (compressors : List (Str × (ByteSeq → Option ByteSeq))) :
    ∀ (encodings : List Str) (variants out : List (Str × ByteSeq)),
    mapGet variants ContentEncodingIdentity = some raw →
    (∀ c bs, c ≠ ContentEncodingIdentity → mapGet variants c = some bs →
      bs.length < raw.length) →
    buildAssetLoop raw compressors variants encodings = some out →
    mapGet out ContentEncodingIdentity = some raw ∧
    (∀ c bs, c ≠ ContentEncodingIdentity → mapGet out c = some bs →
      bs.length < raw.length) := by
  intro encodings
  induction encodings with
  | nil =>
    intro variants out h1 h2 h
    injection h with h
    subst h
    exact ⟨h1, h2⟩
  | cons e rest ih =>
    intro variants out h1 h2 h
    unfold buildAssetLoop at h
    by_cases hid : e = ContentEncodingIdentity
    · rw [if_pos hid] at h
      exact ih variants out h1 h2 h
    · rw [if_neg hid] at h
      cases hcomp : mapGet compressors e with
      | none => rw [hcomp] at h; exact Option.noConfusion h
      | some compress =>
        simp only [hcomp] at h
        cases hc : compress raw with
        | none => rw [hc] at h; exact Option.noConfusion h
        | some compressed =>
          simp only [hc] at h
          by_cases hlen : compressed.length ≥ raw.length
          · rw [if_pos hlen] at h
            exact ih variants out h1 h2 h
          · rw [if_neg hlen] at h
            refine ih _ out ?_ ?_ h
            · rw [mapGet_mapSet_ne _ _ _ _ (fun hh => hid hh.symm)]
              exact h1
            · intro c bs hcne hcget
              by_cases hce : c = e
              · subst hce
                rw [mapGet_mapSet_self] at hcget
                injection hcget with hcget
                subst hcget
                exact lt_of_not_ge hlen
              · rw [mapGet_mapSet_ne _ _ _ _ hce] at hcget
                exact h2 c bs hcne hcget

/-- Claim C6: every built asset stores the raw bytes under identity,
every non-identity variant is strictly smaller than the raw bytes, and
the content type is non-empty (given the stdlib guarantee that content
detection never returns an empty string). -/
theorem buildAsset_invariants (raw : ByteSeq) (file : Str) (encodings : List Str)
    (compressors : List (Str × (ByteSeq → Option ByteSeq)))
    (mimeByExtension : Str → Str) (detectContentType : ByteSeq → Str) (asset : Asset)
    (hdet : ∀ bs, detectContentType bs ≠ [])
    (h : buildAsset raw file encodings compressors mimeByExtension detectContentType =
      some asset) :
    mapGet asset.variants ContentEncodingIdentity = some raw ∧
    (∀ c bs, c ≠ ContentEncodingIdentity → mapGet asset.variants c = some bs →
      bs.length < raw.length) ∧
    asset.contentType ≠ [] := by
  unfold buildAsset at h
  cases hloop : buildAssetLoop raw compressors
      (mapSet [] ContentEncodingIdentity raw) encodings with
  | none => rw [hloop] at h; exact Option.noConfusion h
  | some variants =>
    simp only [hloop] at h
    injection h with h
    subst h
    have hinit2 : ∀ c bs, c ≠ ContentEncodingIdentity →
        mapGet (mapSet [] ContentEncodingIdentity raw) c = some bs →
        bs.length < raw.length := by
      intro c bs hc hget
      rw [mapGet_mapSet_ne _ _ _ _ hc] at hget
      exact Option.noConfusion hget
    obtain ⟨g1, g2⟩ := buildAssetLoop_invariant raw compressors encodings _ variants
      (mapGet_mapSet_self _ _ _) hinit2 hloop
    refine ⟨g1, g2, ?_⟩
    by_cases hext : mimeByExtension (pathExt file) = []
    · simpa [hext] using hdet raw
    · simp [hext]

/-- Witness for `buildAsset_invariants` on a four-byte file whose gzip
variant compresses to one byte. -/
theorem buildAsset_invariants_witness :
    mapGet [(ContentEncodingIdentity, ([0, 0, 0, 0] : ByteSeq)), (ContentEncodingGzip, [7])]
      ContentEncodingIdentity = some [0, 0, 0, 0] ∧
    ([7] : ByteSeq).length < ([0, 0, 0, 0] : ByteSeq).length ∧
    str "application/octet-stream" ≠ [] := by
  have h := buildAsset_invariants [0, 0, 0, 0] (str "a.bin")
    [ContentEncodingGzip, ContentEncodingIdentity]
    [(ContentEncodingGzip, fun _ => some [7])] (fun _ => [])
    (fun _ => str "application/octet-stream")
    ⟨str "application/octet-stream",
      [(ContentEncodingIdentity, [0, 0, 0, 0]), (ContentEncodingGzip, [7])]⟩
    (fun bs => by show str "application/octet-stream" ≠ []; decide) rfl
  exact ⟨h.1, h.2.1 ContentEncodingGzip [7] (by decide) (by decide), h.2.2⟩

theorem filepathToURLPath_idem (v : Str) :
    filepathToURLPath (filepathToURLPath v) = filepathToURLPath v := by
  induction v with
  | nil => rfl
  | cons c cs ih =>
    show (if (if c = '\\' then '/' else c) = '\\' then '/' else if c = '\\' then '/' else c) ::
        filepathToURLPath (filepathToURLPath cs) =
      (if c = '\\' then '/' else c) :: filepathToURLPath cs
    rw [ih]
    by_cases hc : c = '\\' <;> simp [hc]

theorem resolveCleanPath_translate (idx rel : Str) :
    resolveCleanPath idx rel = resolveCleanPath idx (filepathToURLPath rel) := by
  unfold resolveCleanPath
  rw [filepathToURLPath_idem]

theorem resolveAsset_translate (assets : List (Str × Asset)) (idx rel : Str) :
    resolveAsset assets idx rel = resolveAsset assets idx (filepathToURLPath rel) := by
  unfold resolveAsset
  rw [← resolveCleanPath_translate]

theorem resolveAsset_direct (assets : List (Str × Asset)) (idx rel : Str) (asset : Asset)
    (h : mapGet assets ('/' :: resolveCleanPath idx rel) = some asset) :
    resolveAsset assets idx rel = some asset := by
  unfold resolveAsset
  rw [h]

theorem resolveAsset_fallback (assets : List (Str × Asset)) (idx rel : Str) (asset : Asset)
    (hdirect : mapGet assets ('/' :: resolveCleanPath idx rel) = none)
    (hneq : resolveCleanPath idx rel ≠ idx)
    (hjoin : mapGet assets ('/' :: goPathJoin2 (resolveCleanPath idx rel) idx) = some asset) :
    resolveAsset assets idx rel = some asset := by
  unfold resolveAsset
  rw [hdirect]
  dsimp only
  rw [if_pos hneq]
  exact hjoin

theorem resolveAsset_miss (assets : List (Str × Asset)) (idx rel : Str)
    (hdirect : mapGet assets ('/' :: resolveCleanPath idx rel) = none)
    (hjoin : mapGet assets ('/' :: goPathJoin2 (resolveCleanPath idx rel) idx) = none) :
    resolveAsset assets idx rel = none := by
  unfold resolveAsset
  rw [hdirect]
  dsimp only
  by_cases hneq : resolveCleanPath idx rel ≠ idx
  · rw [if_pos hneq]
    exact hjoin
  · rw [if_neg hneq]

/-- Claim C8: the path resolver translates backslashes, maps the empty
suffix to the index file, looks the cleaned key up directly, falls back
to `key/index` when the key is not already the index file (so both
`docs` and `docs/` resolve to the asset at `/docs/index.html`), and
otherwise reports "not found". -/
theorem resolveAsset_spec :
    (∀ assets idx rel, resolveAsset assets idx rel =
      resolveAsset assets idx (filepathToURLPath rel)) ∧
    (∀ idx, resolveCleanPath idx [] = trimLeadSlash (pathClean ('/' :: idx))) ∧
    (∀ assets idx rel asset,
      mapGet assets ('/' :: resolveCleanPath idx rel) = some asset →
      resolveAsset assets idx rel = some asset) ∧
    (∀ assets idx rel asset,
      mapGet assets ('/' :: resolveCleanPath idx rel) = none →
      resolveCleanPath idx rel ≠ idx →
      mapGet assets ('/' :: goPathJoin2 (resolveCleanPath idx rel) idx) = some asset →
      resolveAsset assets idx rel = some asset) ∧
    (∀ assets idx rel,
      mapGet assets ('/' :: resolveCleanPath idx rel) = none →
      mapGet assets ('/' :: goPathJoin2 (resolveCleanPath idx rel) idx) = none →
      resolveAsset assets idx rel = none) ∧
    (∀ assets asset, mapGet assets (str "/docs") = none →
      mapGet assets (str "/docs/index.html") = some asset →
      resolveAsset assets (str "index.html") (str "docs") = some asset ∧
      resolveAsset assets (str "index.html") (str "docs/") = some asset) := by
  refine ⟨resolveAsset_translate, fun idx => rfl, resolveAsset_direct,
    resolveAsset_fallback, resolveAsset_miss, ?_⟩
  intro assets asset h1 h2
  constructor
  · refine resolveAsset_fallback assets (str "index.html") (str "docs") asset ?_ (by decide) ?_
    · rw [(by decide :
        ('/' :: resolveCleanPath (str "index.html") (str "docs") : Str) = str "/docs")]
      exact h1
    · rw [(by decide : ('/' :: goPathJoin2 (resolveCleanPath (str "index.html") (str "docs"))
        (str "index.html") : Str) = str "/docs/index.html")]
      exact h2
  · refine resolveAsset_fallback assets (str "index.html") (str "docs/") asset ?_ (by decide) ?_
    · rw [(by decide :
        ('/' :: resolveCleanPath (str "index.html") (str "docs/") : Str) = str "/docs")]
      exact h1
    · rw [(by decide : ('/' :: goPathJoin2 (resolveCleanPath (str "index.html") (str "docs/"))
        (str "index.html") : Str) = str "/docs/index.html")]
      exact h2

/-- Witness for `resolveAsset_spec`: both `docs` and `docs/` resolve to
the asset stored at `/docs/index.html`. -/
theorem resolveAsset_spec_witness :
    resolveAsset [(str "/docs/index.html",
        ⟨str "text/html", [(ContentEncodingIdentity, [1])]⟩)]
      (str "index.html") (str "docs") =
      some ⟨str "text/html", [(ContentEncodingIdentity, [1])]⟩ ∧
    resolveAsset [(str "/docs/index.html",
        ⟨str "text/html", [(ContentEncodingIdentity, [1])]⟩)]
      (str "index.html") (str "docs/") =
      some ⟨str "text/html", [(ContentEncodingIdentity, [1])]⟩ :=
  resolveAsset_spec.2.2.2.2.2
    [(str "/docs/index.html", ⟨str "text/html", [(ContentEncodingIdentity, [1])]⟩)]
    ⟨str "text/html", [(ContentEncodingIdentity, [1])]⟩ (by decide) (by decide)

/-- Claim C9: every 200 response comes from a resolved asset and an
acceptable negotiated coding, and in that case the handler varies on
Accept-Encoding, sends the asset's content type, sets Content-Encoding
exactly for non-identity codings, sets Cache-Control exactly when
configured non-empty, answers HEAD with the variant's length and no
body, and answers GET with the variant's bytes. -/
theorem serve_contract (assets : List (Str × Asset)) (idx cc : Str) (encs : List Str)
    (m : Method) (rel hdr : Str) :
    ((serve assets idx cc encs m rel hdr).status = 200 →
      ∃ asset e, resolveAsset assets idx rel = some asset ∧
        negotiateEncoding hdr encs asset.variants = (e, true)) ∧
    (∀ asset e, resolveAsset assets idx rel = some asset →
      negotiateEncoding hdr encs asset.variants = (e, true) →
      serve assets idx cc encs m rel hdr =
        { status := 200,
          contentType := some asset.contentType,
          contentEncoding := if e ≠ ContentEncodingIdentity then some e else none,
          cacheControl := if cc ≠ [] then some cc else none,
          varyAcceptEncoding := true,
          contentLength :=
            if m = Method.head then some ((mapGet asset.variants e).getD []).length
            else none,
          body :=
            if m = Method.head then none
            else some ((mapGet asset.variants e).getD []) }) := by
  constructor
  · intro h
    unfold serve at h
    cases hres : resolveAsset assets idx rel with
    | none =>
      rw [hres] at h
      simp [statusOnly] at h
    | some asset =>
      rw [hres] at h
      dsimp only at h
      by_cases hneg : (negotiateEncoding hdr encs asset.variants).2 = false
      · rw [if_pos hneg] at h
        simp [statusOnly] at h
      · refine ⟨asset, (negotiateEncoding hdr encs asset.variants).1, rfl, ?_⟩
        have h2 : (negotiateEncoding hdr encs asset.variants).2 = true := by
          cases hb : (negotiateEncoding hdr encs asset.variants).2
          · exact absurd hb hneg
          · rfl
        rw [← h2]
  · intro asset e hres hneg
    unfold serve
    rw [hres]
    dsimp only
    rw [hneg]
    dsimp only
    rw [if_neg (by simp)]
    rfl

/-- Witness for `serve_contract`: a HEAD request served with the gzip
variant carries its length, Content-Encoding and Vary, and no body. -/
theorem serve_contract_witness :
    serve [(str "/hello.txt",
        ⟨str "text/plain", [(ContentEncodingIdentity, [1, 2]), (ContentEncodingGzip, [9])]⟩)]
      (str "index.html") (str "max-age=60") defaultStaticEncodings Method.head
      (str "hello.txt") (str "gzip") =
      { status := 200,
        contentType := some (str "text/plain"),
        contentEncoding := some ContentEncodingGzip,
        cacheControl := some (str "max-age=60"),
        varyAcceptEncoding := true,
        contentLength := some 1,
        body := none } :=
  ((serve_contract [(str "/hello.txt",
      ⟨str "text/plain", [(ContentEncodingIdentity, [1, 2]), (ContentEncodingGzip, [9])]⟩)]
    (str "index.html") (str "max-age=60") defaultStaticEncodings Method.head
    (str "hello.txt") (str "gzip")).2
    ⟨str "text/plain", [(ContentEncodingIdentity, [1, 2]), (ContentEncodingGzip, [9])]⟩
    ContentEncodingGzip (by decide) (by decide)).trans (by decide)

/-- One step of the code's loop (with its `""` sentinel) simulates one
step of the specification's loop (with `Option`), provided the scanned
coding is not the empty string. -/
theorem negotiateStep_simulates_specStep (specs : AcceptEncodingSpecs)
    (variants : List (Str × ByteSeq)) (bc : Str × ℚ) (bs : Option Str × ℚ) (e : Str)
    (hene : e ≠ [])
    (hq : bc.2 = bs.2)
    (hrel : (bc.1 = [] ∧ bs.1 = none) ∨ (bc.1 ≠ [] ∧ bs.1 = some bc.1)) :
    (negotiateStep specs variants bc e).2 = (specStep specs variants bs e).2 ∧
    (((negotiateStep specs variants bc e).1 = [] ∧ (specStep specs variants bs e).1 = none) ∨
     ((negotiateStep specs variants bc e).1 ≠ [] ∧
      (specStep specs variants bs e).1 = some (negotiateStep specs variants bc e).1)) := by
  unfold negotiateStep specStep
  by_cases h1 : e = ContentEncodingIdentity
  · rw [if_pos h1, if_pos h1]
    exact ⟨hq, hrel⟩
  · rw [if_neg h1, if_neg h1]
    by_cases h2 : (mapGet variants e).isNone = true
    · rw [if_pos h2, if_pos h2]
      exact ⟨hq, hrel⟩
    · rw [if_neg h2, if_neg h2]
      by_cases h3 : qValueFor specs e ≤ 0
      · rw [if_pos h3, if_neg (fun hc => absurd hc.1 (not_lt.2 h3))]
        exact ⟨hq, hrel⟩
      · rw [if_neg h3]
        by_cases h4 : qValueFor specs e > bc.2
        · rw [if_pos h4, if_pos ⟨lt_of_not_le h3, hq ▸ h4⟩]
          exact ⟨rfl, Or.inr ⟨hene, rfl⟩⟩
        · rw [if_neg h4, if_neg (fun hc => h4 (hq.symm ▸ hc.2))]
          exact ⟨hq, hrel⟩

/-- The loop simulation, lifted to the whole scan. -/
theorem fold_negotiate_simulates_spec (specs : AcceptEncodingSpecs)
    (variants : List (Str × ByteSeq)) :
    ∀ (l : List Str) (bc : Str × ℚ) (bs : Option Str × ℚ),
    (∀ e ∈ l, e ≠ []) →
    bc.2 = bs.2 →
    ((bc.1 = [] ∧ bs.1 = none) ∨ (bc.1 ≠ [] ∧ bs.1 = some bc.1)) →
    (l.foldl (negotiateStep specs variants) bc).2 =
      (l.foldl (specStep specs variants) bs).2 ∧
    (((l.foldl (negotiateStep specs variants) bc).1 = [] ∧
      (l.foldl (specStep specs variants) bs).1 = none) ∨
     ((l.foldl (negotiateStep specs variants) bc).1 ≠ [] ∧
      (l.foldl (specStep specs variants) bs).1 =
        some (l.foldl (negotiateStep specs variants) bc).1)) := by
  intro l
  induction l with
  | nil =>
    intro bc bs _ hq hrel
    exact ⟨hq, hrel⟩
  | cons e rest ih =>
    intro bc bs hne hq hrel
    rw [List.foldl_cons, List.foldl_cons]
    obtain ⟨hq2, hrel2⟩ := negotiateStep_simulates_specStep specs variants bc bs e
      (hne e (by simp)) hq hrel
    exact ih _ _ (fun x hx => hne x (by simp [hx])) hq2 hrel2

/-- The finishing steps agree on related loop results. -/
theorem negotiateFinish_eq_specFinish (specs : AcceptEncodingSpecs)
    (variants : List (Str × ByteSeq)) (bc : Str × ℚ) (bs : Option Str × ℚ)
    (hq : bc.2 = bs.2)
    (hrel : (bc.1 = [] ∧ bs.1 = none) ∨ (bc.1 ≠ [] ∧ bs.1 = some bc.1)) :
    negotiateFinish specs variants bc =
      (match specFinish specs variants bs with
       | some e => (e, true)
       | none => ([], false)) := by
  unfold negotiateFinish specFinish
  by_cases hover : hasDeclared specs ContentEncodingIdentity = true ∧
      qValueFor specs ContentEncodingIdentity > bc.2 ∧
      (mapGet variants ContentEncodingIdentity).isSome = true ∧
      qValueFor specs ContentEncodingIdentity > 0
  · have hover2 : hasDeclared specs ContentEncodingIdentity = true ∧
        qValueFor specs ContentEncodingIdentity > bs.2 ∧
        qValueFor specs ContentEncodingIdentity > 0 ∧
        (mapGet variants ContentEncodingIdentity).isSome = true :=
      ⟨hover.1, hq ▸ hover.2.1, hover.2.2.2, hover.2.2.1⟩
    rw [if_pos hover, if_pos hover2]
  · have hover2 : ¬(hasDeclared specs ContentEncodingIdentity = true ∧
        qValueFor specs ContentEncodingIdentity > bs.2 ∧
        qValueFor specs ContentEncodingIdentity > 0 ∧
        (mapGet variants ContentEncodingIdentity).isSome = true) :=
      fun hc => hover ⟨hc.1, hq.symm ▸ hc.2.1, hc.2.2.2, hc.2.2.1⟩
    rw [if_neg hover, if_neg hover2]
    rcases hrel with ⟨hc1, hs1⟩ | ⟨hc1, hs1⟩
    · rw [hs1]
      dsimp only
      have hbc : ¬(bc.1 ≠ []) := fun hcc => hcc hc1
      rw [if_neg hbc]
      by_cases hq0 : qValueFor specs ContentEncodingIdentity ≤ 0
      · have hs : ¬(qValueFor specs ContentEncodingIdentity > 0 ∧
            (mapGet variants ContentEncodingIdentity).isSome = true) :=
          fun hc => absurd hc.1 (not_lt.2 hq0)
        rw [if_pos hq0, if_neg hs]
      · rw [if_neg hq0]
        by_cases hnone : (mapGet variants ContentEncodingIdentity).isNone = true
        · have hs : ¬(qValueFor specs ContentEncodingIdentity > 0 ∧
              (mapGet variants ContentEncodingIdentity).isSome = true) := by
            intro hc
            rw [Option.isNone_iff_eq_none.1 hnone] at hc
            simp at hc
          rw [if_pos hnone, if_neg hs]
        · have hs : qValueFor specs ContentEncodingIdentity > 0 ∧
              (mapGet variants ContentEncodingIdentity).isSome = true := by
            refine ⟨lt_of_not_le hq0, ?_⟩
            cases hopt : mapGet variants ContentEncodingIdentity with
            | none => exact absurd (by rw [hopt]; rfl) hnone
            | some bsv => rfl
          rw [if_neg hnone, if_pos hs]
    · rw [hs1]
      dsimp only
      rw [if_pos hc1]

theorem specStep_empty_variants (specs : AcceptEncodingSpecs) :
    ∀ (l : List Str) (b : Option Str × ℚ), l.foldl (specStep specs []) b = b := by
  intro l
  induction l with
  | nil => intro b; rfl
  | cons e rest ih =>
    intro b
    rw [List.foldl_cons]
    have hstep : specStep specs [] b e = b := by
      unfold specStep
      by_cases h1 : e = ContentEncodingIdentity
      · rw [if_pos h1]
      · rw [if_neg h1,
          if_pos (show (mapGet ([] : List (Str × ByteSeq)) e).isNone = true from rfl)]
    rw [hstep, ih]

/-- Claim C2: on inputs of the data model — a preference list of
coding names containing identity, as every normalized `encodings` list
is — the negotiator returns exactly what the specification's selection
algorithm prescribes. -/
theorem negotiateEncoding_eq_specSelect (header : Str) (preferred : List Str)
    (variants : List (Str × ByteSeq))
    (hmem : ∀ e ∈ preferred, e ∈ codingNames)
    (hid : ContentEncodingIdentity ∈ preferred) :
    negotiateEncoding header preferred variants =
      (match specSelect header preferred variants with
       | some e => (e, true)
       | none => ([], false)) := by
  have hpne : preferred ≠ [] := fun h => by simp [h] at hid
  by_cases hv : variants = []
  · subst hv
    rw [show negotiateEncoding header preferred [] = ([], false) from by
      simp [negotiateEncoding]]
    unfold specSelect
    rw [specStep_empty_variants]
    unfold specFinish
    rw [if_neg (fun hc => by simp [mapGet_nil] at hc)]
    dsimp only
    rw [if_neg (fun hc => by simp [mapGet_nil] at hc)]
  · unfold negotiateEncoding
    rw [if_neg (by simp [List.length_eq_zero, hpne, hv])]
    unfold specSelect
    have hnn : ∀ e ∈ codingNames, e ≠ [] := by decide
    obtain ⟨hq, hrel⟩ := fold_negotiate_simulates_spec (parseAcceptEncoding header)
      variants preferred ([], -1) (none, -1)
      (fun e he => hnn e (hmem e he))
      rfl (Or.inl ⟨rfl, rfl⟩)
    exact negotiateFinish_eq_specFinish _ _ _ _ hq hrel

/-- Witness for `negotiateEncoding_eq_specSelect`: `*;q=1` resolves to
the server's most-preferred compressed variant, zstd. -/
theorem negotiateEncoding_eq_specSelect_witness :
    negotiateEncoding (str "*;q=1") defaultStaticEncodings
      [(ContentEncodingZstd, [1]), (ContentEncodingBrotli, [2]), (ContentEncodingGzip, [3]),
       (ContentEncodingDeflate, [4]), (ContentEncodingIdentity, [5, 6])] =
      (ContentEncodingZstd, true) := by
  rw [negotiateEncoding_eq_specSelect (str "*;q=1") defaultStaticEncodings
    [(ContentEncodingZstd, [1]), (ContentEncodingBrotli, [2]), (ContentEncodingGzip, [3]),
     (ContentEncodingDeflate, [4]), (ContentEncodingIdentity, [5, 6])]
    (by decide) (by decide)]
  decide

end Sgsr
